import Mathlib

/-!
Verification of the team-formation core of the persona grouping service
(`api/persona_api.py`).  The Python code is shallowly embedded: loosely
typed JSON-ish request values become the inductive `PVal`, Python floats
become `ℚ`, dictionaries with insertion-order semantics become
association lists, and the database-backed Compatibility Oracle
(`UserPersona.calculate_team_score`, whose source is not part of this
core) is a black-box function parameter constrained only by its
documented contract of returning a base score in [0, 100].
-/

/-- A loosely typed request value: the subset of JSON shapes the core
inspects (strings, integers, lists, string-keyed objects, null).
Python floats/booleans are not needed by any inspected path. -/
inductive PVal where
  | vstr (s : String)
  | vint (n : ℤ)
  | vlist (l : List PVal)
  | vdict (d : List (String × PVal))
  | vnone
deriving Repr

/-- `dict.get(key)` on an embedded object: the first binding for `key`,
`vnone` (Python `None`) when the key is absent. -/
def pvGet (d : List (String × PVal)) (key : String) : PVal :=
  (d.lookup key).getD PVal.vnone

/-- Python `str.strip()`: remove leading and trailing whitespace.
(Implemented over the character list so that it evaluates inside the
kernel; `String.trim` computes the same string.) -/
def pyStrip (s : String) : String :=
  List.asString
    (((s.toList.dropWhile Char.isWhitespace).reverse.dropWhile Char.isWhitespace).reverse)

/-- The numeric value of a non-empty all-digit character list. -/
def digitsVal (cs : List Char) : Option ℕ :=
  if cs = [] ∨ ¬ cs.all Char.isDigit then none
  else some (cs.foldl (fun acc c => 10 * acc + (c.toNat - '0'.toNat)) 0)

/-- Python `int(s)` on a string: strip whitespace, accept an optional
sign followed by digits, raise (here: `none`) otherwise. -/
def pyParseInt (s : String) : Option ℤ :=
  match (pyStrip s).toList with
  | '-' :: rest => (digitsVal rest).map (fun n => -(n : ℤ))
  | '+' :: rest => (digitsVal rest).map (fun n => (n : ℤ))
  | cs => (digitsVal cs).map (fun n => (n : ℤ))

/-- Lexicographic code-point comparison of character lists — the order
Python uses on strings; agrees with `List.lt` (see `charListLt_iff`). -/
def charListLt : List Char → List Char → Bool
  | [], [] => false
  | [], _ :: _ => true
  | _ :: _, [] => false
  | a :: as, b :: bs =>
      if a < b then true else if b < a then false else charListLt as bs

/-- Python `s1 < s2` on strings (lexicographic by code point). -/
def strLt (s₁ s₂ : String) : Bool :=
  charListLt s₁.toList s₂.toList

/-- Python `str(v)` restricted to the embedded values.  Only the string
and integer cases are ever reached by the claims; containers get an
opaque rendering. -/
def pvalStr : PVal → String
  | .vstr s => s
  | .vint n => toString n
  | .vnone => "None"
  | .vlist _ => "<list>"
  | .vdict _ => "<dict>"

/-- `_safe_int(v, default)`: `int(v)` with any exception mapped to the
default.  `int` accepts integers and integer-shaped strings (with
surrounding whitespace, as Python's `int` strips it) and raises on
everything else embedded here (`None`, lists, dicts). -/
def safeInt : PVal → ℤ → ℤ
  | .vint n, _ => n
  | .vstr s, d => (pyParseInt s).getD d
  | _, d => d

/-- A sanitized feedback record as produced by `_normalize_feedback_rows`:
at least two non-blank persona aliases and two ratings in 1..5. -/
structure FeedbackRow where
  personas : List String
  studentRating : ℤ
  teacherRating : ℤ
deriving Repr, DecidableEq

/-- One entry of a raw `personas` list: a bare string is stripped; an
object carrying an `alias` field is rendered with `str(...)` and
stripped; anything else is discarded. -/
def personaAliasOf : PVal → Option String
  | .vstr s => some (pyStrip s)
  | .vdict d =>
      match d.lookup "alias" with
      | some v => some (pyStrip (pvalStr v))
      | none => none
  | _ => none

/-- The surviving alias list of a raw `personas` value: normalize each
entry, then drop blank results (Python keeps `a` only `if a`). -/
def rowAliases (ps : List PVal) : List String :=
  (ps.filterMap personaAliasOf).filter (fun a => a ≠ "")

/-- `_normalize_feedback_rows` applied to a single row (the body of the
loop; `none` models `continue`). -/
def normalizeRow : PVal → Option FeedbackRow
  | .vdict r =>
      match pvGet r "personas" with
      | .vlist personas =>
          if personas.length < 2 then none
          else
            let aliases := rowAliases personas
            if aliases.length < 2 then none
            else
              let s := safeInt (pvGet r "student_rating_1to5") 3
              let t := safeInt (pvGet r "teacher_rating_1to5") 3
              if 1 ≤ s ∧ s ≤ 5 ∧ 1 ≤ t ∧ t ≤ 5 then
                some ⟨aliases, s, t⟩
              else none
      | _ => none
  | _ => none

/-- `_normalize_feedback_rows`: a non-list input yields `[]`; otherwise
each row is kept exactly when it survives `normalizeRow`. -/
def normalizeFeedbackRows : PVal → List FeedbackRow
  | .vlist rows => rows.filterMap normalizeRow
  | _ => []

/-- A learned pair-adjustment map, `dict[(p1, p2)] = delta`, embedded as
an insertion-ordered association list with unique keys. -/
abbrev PairDelta : Type := List ((String × String) × ℚ)

/-- `pair_delta.get((p1, p2), 0.0)`. -/
def pdGet (pd : PairDelta) (k : String × String) : ℚ :=
  (List.lookup k pd).getD 0

/-- `pair_delta[(p1, p2)] += delta` on a `defaultdict(float)`: update the
existing binding in place, or append a fresh one at the end. -/
def pdAdd : PairDelta → (String × String) → ℚ → PairDelta
  | [], k, d => [(k, d)]
  | (k', v) :: rest, k, d =>
      if k' = k then (k', v + d) :: rest else (k', v) :: pdAdd rest k d

/-- `sorted([a, b])` as a pair: Python's stable sort swaps exactly when
`b < a`. -/
def sortPair (a b : String) : String × String :=
  if strLt b a then (b, a) else (a, b)

/-- All index pairs `i < j` of a persona list, each rendered in sorted
order — the iteration order of the two nested `for` loops. -/
def recordPairs : List String → List (String × String)
  | [] => []
  | p :: rest => rest.map (sortPair p) ++ recordPairs rest

/-- The body of `_feedback_to_pair_delta`'s outer loop for one sanitized
record: `delta = ((s + t)/2 - 3) * alpha`, accumulated into every
unordered pair of the record. -/
def applyRow (pd : PairDelta) (row : FeedbackRow) (alpha : ℚ) : PairDelta :=
  let avg := ((row.studentRating : ℚ) + (row.teacherRating : ℚ)) / 2
  let delta := (avg - 3) * alpha
  (recordPairs row.personas).foldl (fun acc k => pdAdd acc k delta) pd

/-- `_feedback_to_pair_delta(feedback_rows, alpha)`. -/
def feedbackToPairDelta (rows : PVal) (alpha : ℚ) : PairDelta :=
  (normalizeFeedbackRows rows).foldl (fun pd r => applyRow pd r alpha) []

-- Concrete fixtures used by the example-style claims.

/-- A feedback row `{"personas": ["A","B"], "student_rating_1to5": s,
"teacher_rating_1to5": t}`. -/
def mkRowAB (s t : ℤ) : PVal :=
  .vdict [("personas", .vlist [.vstr "A", .vstr "B"]),
          ("student_rating_1to5", .vint s),
          ("teacher_rating_1to5", .vint t)]

/-- A feedback row on personas `["A","B","C"]` with ratings (5,5). -/
def rowABC55 : PVal :=
  .vdict [("personas", .vlist [.vstr "A", .vstr "B", .vstr "C"]),
          ("student_rating_1to5", .vint 5),
          ("teacher_rating_1to5", .vint 5)]

/-- A feedback row that lists the same persona identifier twice. -/
def rowAA55 : PVal :=
  .vdict [("personas", .vlist [.vstr "A", .vstr "A"]),
          ("student_rating_1to5", .vint 5),
          ("teacher_rating_1to5", .vint 5)]

/-- A feedback row with the student rating missing entirely. -/
def rowNoStudent : List (String × PVal) :=
  [("personas", .vlist [.vstr "A", .vstr "B"]),
   ("teacher_rating_1to5", .vint 5)]

/-- One persona assignment of an actor, as read back from the persona
store: alias and category of the persona, the assignment's weight and
selection timestamp (both nullable in the store). -/
structure PAssign where
  pAlias : String
  category : String
  weight : Option ℚ
  selectedAt : Option ℚ
deriving Repr, DecidableEq

/-- An actor (user) together with the persona assignments the store
returns for it.  `uid` is the external identifier. -/
structure Actor where
  uid : String
  assigns : List PAssign
deriving Repr, DecidableEq

/-- The sort key of `_extract_primary_student_alias`:
`(up.weight or 0, up.selected_at or 0)`. -/
def primaryKey (a : PAssign) : ℚ × ℚ :=
  (a.weight.getD 0, a.selectedAt.getD 0)

/-- Strict lexicographic comparison of sort keys. -/
def keyLt (k₁ k₂ : ℚ × ℚ) : Prop :=
  k₁.1 < k₂.1 ∨ (k₁.1 = k₂.1 ∧ k₁.2 < k₂.2)

instance : DecidableRel keyLt := by
  unfold keyLt
  infer_instance

/-- `_extract_primary_student_alias`: among the actor's student-category
assignments, the alias of the first element of the stable descending
sort by `(weight or 0, selected_at or 0)` — equivalently (by sort
stability) the earliest element attaining the maximal key. -/
def extractPrimaryStudentAlias (assigns : List PAssign) : Option String :=
  match assigns.filter (fun a => a.category = "student") with
  | [] => none
  | u :: ups =>
      some (ups.foldl (fun best x => if keyLt (primaryKey best) (primaryKey x) then x else best) u).pAlias

/-- `_clamp(x, lo, hi) = max(lo, min(hi, x))`. -/
def clamp (x lo hi : ℚ) : ℚ :=
  max lo (min hi x)

/-- Python 3 `round` to an integer: round half to even. -/
def pyRound (q : ℚ) : ℤ :=
  let f := ⌊q⌋
  let frac := q - (f : ℚ)
  if frac < 1 / 2 then f
  else if 1 / 2 < frac then f + 1
  else if 2 ∣ f then f else f + 1

/-- `round(x, 2)`: round to 2 decimal places. -/
def round2 (q : ℚ) : ℚ :=
  (pyRound (q * 100) : ℚ) / 100

/-- The raw pair total of `_team_feedback_adjustment`'s double loop:
`sum of pair_delta.get(sorted pair, 0.0)` over all index pairs. -/
def pairSum (aliases : List String) (pd : PairDelta) : ℚ :=
  ((recordPairs aliases).map (pdGet pd)).sum

/-- `_team_feedback_adjustment(student_aliases, pair_delta, max_bonus)`:
`0.0` on an empty/short alias list or empty map, otherwise the pair
total clamped to `[-max_bonus, max_bonus]`. -/
def teamFeedbackAdjustment (aliases : List String) (pd : PairDelta) (maxBonus : ℚ) : ℚ :=
  if aliases = [] ∨ aliases.length < 2 ∨ pd = ([] : PairDelta) then 0
  else clamp (pairSum aliases pd) (-maxBonus) maxBonus

/-- The non-empty persona bundles of a group, in actor order (the
`group_personas_list` loop of `_calculate_team_score_with_feedback`). -/
def groupBundles (groupUsers : List Actor) : List (List PAssign) :=
  (groupUsers.map (fun u => u.assigns)).filter (fun b => b ≠ [])

/-- `base = calculate_team_score(group_personas_list) if group_personas_list
else 0.0`, with the Oracle as a black-box parameter. -/
def groupBase (oracle : List (List PAssign) → ℚ) (groupUsers : List Actor) : ℚ :=
  if groupBundles groupUsers ≠ [] then oracle (groupBundles groupUsers) else 0

/-- The group's primary student aliases (`if a:` keeps only truthy,
i.e. non-empty, aliases). -/
def groupStudentAliases (groupUsers : List Actor) : List String :=
  groupUsers.filterMap (fun u =>
    match extractPrimaryStudentAlias u.assigns with
    | some a => if a = "" then none else some a
    | none => none)

/-- `_calculate_team_score_with_feedback(group_users, pair_delta)`:
`round(_clamp(base + fb, 0.0, 100.0), 2)`. -/
def calcTeamScoreWithFeedback (oracle : List (List PAssign) → ℚ)
    (groupUsers : List Actor) (pd : PairDelta) : ℚ :=
  round2 (clamp (groupBase oracle groupUsers +
    teamFeedbackAdjustment (groupStudentAliases groupUsers) pd 15) 0 100)

/-- The per-group score expression inside `_FormGroups.post`'s trial
loop: the feedback pipeline when `pair_delta` is truthy, otherwise a
direct Oracle call on the non-empty bundles (note: neither clamped nor
rounded on this path), or `0.0` for an empty group. -/
def formGroupsTrialScore (oracle : List (List PAssign) → ℚ)
    (groupUsers : List Actor) (pd : PairDelta) : ℚ :=
  if pd ≠ ([] : PairDelta) then calcTeamScoreWithFeedback oracle groupUsers pd
  else if groupUsers ≠ [] then oracle (groupBundles groupUsers)
  else 0

/-- The slicing loop of one trial, fuel-indexed so that it evaluates in
the kernel: `while len(remaining) >= group_size` emit the next
`group_size`-prefix, then emit the non-empty leftover as one final
group.  `chunkGroups` supplies the fuel. -/
def chunkGo (fuel : ℕ) (l : List String) (k : ℕ) : List (List String) :=
  match fuel with
  | 0 => if l.isEmpty then [] else [l]
  | fuel' + 1 =>
      if 0 < k ∧ k ≤ l.length then l.take k :: chunkGo fuel' (l.drop k) k
      else if l.isEmpty then [] else [l]

/-- The partition one trial builds from the shuffled uid list: greedy
consecutive chunks of size `group_size`, remainder trailing.  (For
`group_size = 0` the Python loop would not terminate; the fuel guard is
never reached for the validated sizes 2..10.) -/
def chunkGroups (l : List String) (k : ℕ) : List (List String) :=
  chunkGo l.length l k

/-- The `users` query plus missing-uid check shared by `_FormGroups.post`
and `_EvaluateGroup.post`: match the known uids against the request
list; on a count mismatch report `set(user_uids) - found_uids` (a set —
embedded as the deduplicated request order), else return the matched
uids. -/
def resolveUsers (uids known : List String) : Except (List String) (List String) :=
  let matched := known.filter (fun u => u ∈ uids)
  if matched.length ≠ uids.length then
    .error (uids.dedup.filter (fun u => u ∉ matched))
  else .ok matched

/-- The error responses `_FormGroups.post` can return before searching. -/
inductive FormGroupsError where
  | uidsRequired
  | needTwoUsers
  | badGroupSize
  | usersNotFound (missing : List String)
deriving Repr, DecidableEq

/-- The request-validation prefix of `_FormGroups.post`: empty uid list,
fewer than 2 uids, coerced `group_size` out of [2,10], then the user
lookup; on success the effective group size is returned. -/
def formGroupsValidate (uids : List String) (gsRaw : PVal) (known : List String) :
    Except FormGroupsError ℤ :=
  let gs := safeInt gsRaw 4
  if uids = [] then .error .uidsRequired
  else if uids.length < 2 then .error .needTwoUsers
  else if gs < 2 ∨ 10 < gs then .error .badGroupSize
  else
    match resolveUsers uids known with
    | .error missing => .error (.usersNotFound missing)
    | .ok _ => .ok gs

/-- The learned map inside `_FormGroups.post`: `{}` unless prior
experiences are requested, else the Feedback Learner's output with
`alpha = 2.0` (the `try/except` fail-soft path cannot fire here: the
embedded learner is total). -/
def formGroupsPairDelta (incorporate : Bool) (rows : PVal) : PairDelta :=
  if incorporate then feedbackToPairDelta rows 2 else []

/-- `iterations = 80 if incorporate else 50` — the trial budget is
computed from the request flag alone; `pair_delta` is not consulted. -/
def formGroupsIterations (incorporate : Bool) (_pairDelta : PairDelta) : ℕ :=
  if incorporate then 80 else 50

/-- The `method` diagnostic of the response:
`'ai_feedback' if incorporate and pair_delta else 'ai'`. -/
def formGroupsMethod (incorporate : Bool) (pd : PairDelta) : String :=
  if incorporate = true ∧ pd ≠ ([] : PairDelta) then "ai_feedback" else "ai"

/-- The `feedback_used` diagnostic: `bool(pair_delta)`. -/
def formGroupsFeedbackUsed (pd : PairDelta) : Bool :=
  pd ≠ ([] : PairDelta)

/-- The `learned_pairs` diagnostic: `len(pair_delta)`. -/
def formGroupsLearnedPairs (pd : PairDelta) : ℕ :=
  pd.length

/-- A stub Oracle returning the constant base score 50. -/
def oracle50 : List (List PAssign) → ℚ :=
  fun _ => 50

/-- A stub Oracle returning 100/3 — a legal base score in [0,100] that
is not exact to two decimal places. -/
def oracleThird : List (List PAssign) → ℚ :=
  fun _ => 100 / 3

/-- A concrete actor holding one student-category persona. -/
def actorIndy : Actor :=
  ⟨"u1", [⟨"indy", "student", some 1, some 1⟩]⟩

-- ## Order lemmas for the embedded string comparison

theorem charListLt_iff (l₁ l₂ : List Char) :
    charListLt l₁ l₂ = true ↔ List.Lex (· < ·) l₁ l₂ := by
  induction l₁ generalizing l₂ with
  | nil =>
    cases l₂ with
    | nil =>
        simp only [charListLt]
        constructor
        · intro h; exact absurd h (by simp)
        · intro h; nomatch h
    | cons b bs =>
        simp only [charListLt]
        exact ⟨fun _ => List.Lex.nil, fun _ => trivial⟩
  | cons a as ih =>
    cases l₂ with
    | nil =>
        simp only [charListLt]
        constructor
        · intro h; exact absurd h (by simp)
        · intro h; nomatch h
    | cons b bs =>
        simp only [charListLt]
        by_cases hab : a < b
        · rw [if_pos hab]
          exact ⟨fun _ => List.Lex.rel hab, fun _ => rfl⟩
        · by_cases hba : b < a
          · rw [if_neg hab, if_pos hba]
            constructor
            · intro h; exact absurd h (by simp)
            · intro h
              cases h with
              | cons h' => exact absurd hba (lt_irrefl a)
              | rel h' => exact absurd h' hab
          · have hEq : a = b := le_antisymm (le_of_not_lt hba) (le_of_not_lt hab)
            rw [if_neg hab, if_neg hba, ih bs]
            subst hEq
            constructor
            · intro h; exact List.Lex.cons h
            · intro h
              cases h with
              | cons h' => exact h'
              | rel h' => exact absurd h' (lt_irrefl a)

theorem strLt_iff (s₁ s₂ : String) : strLt s₁ s₂ = true ↔ s₁ < s₂ := by
  rw [String.lt_iff_toList_lt]
  exact charListLt_iff s₁.toList s₂.toList

theorem strLt_eq_false_iff (s₁ s₂ : String) : strLt s₁ s₂ = false ↔ s₂ ≤ s₁ := by
  rw [← not_lt, ← strLt_iff]
  simp

theorem sortPair_le (a b : String) : (sortPair a b).1 ≤ (sortPair a b).2 := by
  unfold sortPair
  rcases h : strLt b a with _ | _
  · rw [strLt_eq_false_iff] at h
    simpa using h
  · rw [strLt_iff] at h
    simpa using le_of_lt h

theorem sortPair_lt (a b : String) (hne : a ≠ b) :
    (sortPair a b).1 < (sortPair a b).2 := by
  unfold sortPair
  rcases h : strLt b a with _ | _
  · rw [strLt_eq_false_iff] at h
    simpa using lt_of_le_of_ne h hne
  · rw [strLt_iff] at h
    simpa using h

theorem recordPairs_mem {k : String × String} :
    ∀ {l : List String}, k ∈ recordPairs l →
      ∃ a b, a ∈ l ∧ b ∈ l ∧ k = sortPair a b ∧ (l.Nodup → a ≠ b)
  | [], h => absurd h (by simp [recordPairs])
  | p :: rest, h => by
      simp only [recordPairs, List.mem_append, List.mem_map] at h
      rcases h with ⟨b, hb, hk⟩ | h
      · exact ⟨p, b, by simp, by simp [hb], hk.symm,
          fun hnd => fun hpb => ((List.nodup_cons.mp hnd).1 (hpb ▸ hb))⟩
      · obtain ⟨a, b, ha, hb, hk, hne⟩ := recordPairs_mem h
        exact ⟨a, b, by simp [ha], by simp [hb], hk,
          fun hnd => hne (List.nodup_cons.mp hnd).2⟩

-- ## Key-shape lemmas for the learned pair map

theorem pdAdd_keys (k : String × String) (d : ℚ) :
    ∀ (pd : PairDelta),
      (pdAdd pd k d).map Prod.fst = pd.map Prod.fst ∨
        (pdAdd pd k d).map Prod.fst = pd.map Prod.fst ++ [k]
  | [] => by
      right
      simp [pdAdd]
  | (k₀, v₀) :: rest => by
      by_cases hk : k₀ = k
      · left
        subst hk
        simp [pdAdd]
      · rcases pdAdd_keys k d rest with h | h
        · left
          simp [pdAdd, hk, h]
        · right
          simp [pdAdd, hk, h]

theorem pdAdd_keys_mem {k' : String × String} (pd : PairDelta) (k : String × String)
    (d : ℚ) (h : k' ∈ (pdAdd pd k d).map Prod.fst) :
    k' ∈ pd.map Prod.fst ∨ k' = k := by
  rcases pdAdd_keys k d pd with he | he
  · rw [he] at h
    exact Or.inl h
  · rw [he, List.mem_append] at h
    rcases h with h | h
    · exact Or.inl h
    · exact Or.inr (by simpa using h)

theorem foldl_pdAdd_keys_mem {k' : String × String} (d : ℚ) :
    ∀ (ks : List (String × String)) (pd : PairDelta),
      k' ∈ ((ks.foldl (fun acc k => pdAdd acc k d) pd).map Prod.fst) →
        k' ∈ pd.map Prod.fst ∨ k' ∈ ks
  | [], pd, h => Or.inl h
  | k :: ks, pd, h => by
      simp only [List.foldl_cons] at h
      rcases foldl_pdAdd_keys_mem d ks (pdAdd pd k d) h with h' | h'
      · rcases pdAdd_keys_mem pd k d h' with h'' | h''
        · exact Or.inl h''
        · exact Or.inr (by simp [h''])
      · exact Or.inr (by simp [h'])

theorem applyRow_keys_mem {k : String × String} (pd : PairDelta) (row : FeedbackRow)
    (alpha : ℚ) (h : k ∈ (applyRow pd row alpha).map Prod.fst) :
    k ∈ pd.map Prod.fst ∨ k ∈ recordPairs row.personas := by
  unfold applyRow at h
  exact foldl_pdAdd_keys_mem _ _ _ h

theorem foldl_applyRow_keys_mem {k : String × String} (alpha : ℚ) :
    ∀ (rows : List FeedbackRow) (pd : PairDelta),
      k ∈ ((rows.foldl (fun acc r => applyRow acc r alpha) pd).map Prod.fst) →
        k ∈ pd.map Prod.fst ∨ ∃ row ∈ rows, k ∈ recordPairs row.personas
  | [], pd, h => Or.inl h
  | r :: rows, pd, h => by
      simp only [List.foldl_cons] at h
      rcases foldl_applyRow_keys_mem alpha rows (applyRow pd r alpha) h with h' | h'
      · rcases applyRow_keys_mem pd r alpha h' with h'' | h''
        · exact Or.inl h''
        · exact Or.inr ⟨r, by simp, h''⟩
      · obtain ⟨row, hrow, hk⟩ := h'
        exact Or.inr ⟨row, by simp [hrow], hk⟩

theorem feedbackToPairDelta_keys_mem {k : String × String} (rows : PVal) (alpha : ℚ)
    (h : k ∈ (feedbackToPairDelta rows alpha).map Prod.fst) :
    ∃ row ∈ normalizeFeedbackRows rows, k ∈ recordPairs row.personas := by
  unfold feedbackToPairDelta at h
  rcases foldl_applyRow_keys_mem alpha (normalizeFeedbackRows rows) [] h with h' | h'
  · simp at h'
  · exact h'

-- ## Clamping and rounding bounds

theorem clamp_le {x lo hi : ℚ} (h : lo ≤ hi) : clamp x lo hi ≤ hi := by
  unfold clamp
  exact max_le h (min_le_left hi x)

theorem le_clamp (x lo hi : ℚ) : lo ≤ clamp x lo hi :=
  le_max_left lo (min hi x)

theorem clamp_of_mem {x lo hi : ℚ} (h₁ : lo ≤ x) (h₂ : x ≤ hi) : clamp x lo hi = x := by
  unfold clamp
  rw [min_eq_right h₂, max_eq_right h₁]

theorem floor_le_pyRound (q : ℚ) : ⌊q⌋ ≤ pyRound q := by
  simp only [pyRound]
  split_ifs <;> omega

theorem le_pyRound_of_le {n : ℤ} {q : ℚ} (h : (n : ℚ) ≤ q) : n ≤ pyRound q :=
  le_trans (Int.le_floor.mpr h) (floor_le_pyRound q)

theorem pyRound_le_of_le {n : ℤ} {q : ℚ} (h : q ≤ (n : ℚ)) : pyRound q ≤ n := by
  have hfl : ⌊q⌋ ≤ n := by
    calc ⌊q⌋ ≤ ⌊(n : ℚ)⌋ := Int.floor_le_floor h
    _ = n := Int.floor_intCast n
  have hfl' : (⌊q⌋ : ℚ) ≤ q := Int.floor_le q
  have hup : (⌊q⌋ : ℚ) + 1 / 2 ≤ q → ⌊q⌋ + 1 ≤ n := by
    intro hq
    have h1 : (⌊q⌋ : ℚ) < (n : ℚ) := by linarith
    have h2 : ⌊q⌋ < n := by exact_mod_cast h1
    omega
  simp only [pyRound]
  split_ifs with h1 h2 h3
  · exact hfl
  · exact hup (by linarith)
  · exact hfl
  · have heq : q - (⌊q⌋ : ℚ) = 1 / 2 := le_antisymm (not_lt.mp h2) (not_lt.mp h1)
    exact hup (by linarith)

theorem round2_nonneg {q : ℚ} (h : 0 ≤ q) : 0 ≤ round2 q := by
  unfold round2
  have h0 : (0 : ℤ) ≤ pyRound (q * 100) := le_pyRound_of_le (by push_cast; linarith)
  positivity

theorem round2_le_100 {q : ℚ} (h : q ≤ 100) : round2 q ≤ 100 := by
  unfold round2
  have h1 : pyRound (q * 100) ≤ (10000 : ℤ) := pyRound_le_of_le (by push_cast; linarith)
  have h2 : ((pyRound (q * 100) : ℚ)) ≤ 10000 := by exact_mod_cast h1
  linarith

-- ## Lemmas about the trial partition slicing

theorem chunkGo_flatten : ∀ (fuel : ℕ) (l : List String) (k : ℕ),
    l.length ≤ fuel → (chunkGo fuel l k).flatten = l
  | 0, l, k, h => by
      have hnil : l = [] := List.eq_nil_of_length_eq_zero (Nat.le_zero.mp h)
      subst hnil
      simp [chunkGo]
  | fuel + 1, l, k, h => by
      by_cases hc : 0 < k ∧ k ≤ l.length
      · have hdrop : (l.drop k).length ≤ fuel := by
          rw [List.length_drop]
          omega
        simp only [chunkGo, if_pos hc, List.flatten_cons]
        rw [chunkGo_flatten fuel (l.drop k) k hdrop]
        exact List.take_append_drop k l
      · by_cases hl : l.isEmpty
        · have hnil : l = [] := List.isEmpty_iff.mp hl
          subst hnil
          simp only [chunkGo, if_neg hc]
          simp
        · simp [chunkGo, if_neg hc, hl]

theorem chunkGo_dropLast_length : ∀ (fuel : ℕ) (l : List String) (k : ℕ),
    l.length ≤ fuel → 0 < k →
      ∀ g ∈ (chunkGo fuel l k).dropLast, g.length = k
  | 0, l, k, h, _ => by
      have hnil : l = [] := List.eq_nil_of_length_eq_zero (Nat.le_zero.mp h)
      subst hnil
      simp [chunkGo]
  | fuel + 1, l, k, h, hk => by
      intro g hg
      by_cases hc : 0 < k ∧ k ≤ l.length
      · simp only [chunkGo, if_pos hc] at hg
        rcases hrest : chunkGo fuel (l.drop k) k with _ | ⟨r, rs⟩
        · rw [hrest] at hg
          simp at hg
        · rw [hrest, List.dropLast_cons₂] at hg
          rcases List.mem_cons.mp hg with hg' | hg'
          · subst hg'
            rw [List.length_take]
            omega
          · have hdrop : (l.drop k).length ≤ fuel := by
              rw [List.length_drop]
              omega
            have ih := chunkGo_dropLast_length fuel (l.drop k) k hdrop hk g
            rw [hrest] at ih
            exact ih hg'
      · simp only [chunkGo, if_neg hc] at hg
        split at hg <;> simp at hg

theorem chunkGo_getLast_length : ∀ (fuel : ℕ) (l : List String) (k : ℕ),
    l.length ≤ fuel → 0 < k →
      ∀ g, (chunkGo fuel l k).getLast? = some g → 1 ≤ g.length ∧ g.length ≤ k
  | 0, l, k, h, _ => by
      have hnil : l = [] := List.eq_nil_of_length_eq_zero (Nat.le_zero.mp h)
      subst hnil
      intro g hg
      simp [chunkGo] at hg
  | fuel + 1, l, k, h, hk => by
      intro g hg
      by_cases hc : 0 < k ∧ k ≤ l.length
      · simp only [chunkGo, if_pos hc] at hg
        rcases hrest : chunkGo fuel (l.drop k) k with _ | ⟨r, rs⟩
        · rw [hrest] at hg
          simp only [List.getLast?_singleton, Option.some.injEq] at hg
          subst hg
          rw [List.length_take]
          omega
        · rw [hrest, List.getLast?_cons_cons] at hg
          have hdrop : (l.drop k).length ≤ fuel := by
            rw [List.length_drop]
            omega
          have ih := chunkGo_getLast_length fuel (l.drop k) k hdrop hk g
          rw [hrest] at ih
          exact ih hg
      · simp only [chunkGo, if_neg hc] at hg
        by_cases hl : l.isEmpty
        · rw [if_pos hl] at hg
          simp at hg
        · rw [if_neg hl] at hg
          simp only [List.getLast?_singleton, Option.some.injEq] at hg
          subst hg
          have hne : l ≠ [] := by simpa [List.isEmpty_iff] using hl
          have hpos := List.length_pos.mpr hne
          push_neg at hc
          have := hc hk
          omega

theorem chunkGroups_flatten (l : List String) (k : ℕ) : (chunkGroups l k).flatten = l :=
  chunkGo_flatten l.length l k (le_refl _)

theorem chunkGroups_dropLast_length (l : List String) (k : ℕ) (hk : 0 < k) :
    ∀ g ∈ (chunkGroups l k).dropLast, g.length = k :=
  chunkGo_dropLast_length l.length l k (le_refl _) hk

theorem chunkGroups_getLast_length (l : List String) (k : ℕ) (hk : 0 < k) :
    ∀ g, (chunkGroups l k).getLast? = some g → 1 ≤ g.length ∧ g.length ≤ k :=
  chunkGo_getLast_length l.length l k (le_refl _) hk

-- ## Lemmas about feedback-row sanitization

theorem rowAliases_length_le (ps : List PVal) : (rowAliases ps).length ≤ ps.length :=
  le_trans (List.length_filter_le _ _) (List.length_filterMap_le _ _)

theorem normalizeRow_sound (r : PVal) (row : FeedbackRow) (h : normalizeRow r = some row) :
    2 ≤ row.personas.length ∧ 1 ≤ row.studentRating ∧ row.studentRating ≤ 5 ∧
      1 ≤ row.teacherRating ∧ row.teacherRating ≤ 5 := by
  cases r with
  | vdict d =>
      simp only [normalizeRow] at h
      split at h
      case _ personas heq =>
        split at h
        · exact absurd h (by simp)
        · split at h
          · exact absurd h (by simp)
          · split at h
            case _ hcond =>
              rename_i hlen halias
              obtain ⟨hs1, hs5, ht1, ht5⟩ := hcond
              have hrow := Option.some.inj h
              subst hrow
              refine ⟨?_, hs1, hs5, ht1, ht5⟩
              show 2 ≤ (rowAliases personas).length
              omega
            · exact absurd h (by simp)
      case _ => exact absurd h (by simp)
  | vstr s => exact absurd h (by simp [normalizeRow])
  | vint n => exact absurd h (by simp [normalizeRow])
  | vlist l => exact absurd h (by simp [normalizeRow])
  | vnone => exact absurd h (by simp [normalizeRow])

theorem normalizeRow_not_dict (r : PVal) (h : ∀ d, r ≠ PVal.vdict d) :
    normalizeRow r = none := by
  cases r with
  | vdict d => exact absurd rfl (h d)
  | vstr s => rfl
  | vint n => rfl
  | vlist l => rfl
  | vnone => rfl

theorem normalizeRow_short_aliases (d : List (String × PVal)) (ps : List PVal)
    (hps : pvGet d "personas" = PVal.vlist ps) (hlen : (rowAliases ps).length < 2) :
    normalizeRow (PVal.vdict d) = none := by
  simp only [normalizeRow, hps]
  by_cases hp : ps.length < 2
  · rw [if_pos hp]
  · rw [if_neg hp, if_pos hlen]

theorem normalizeRow_bad_rating (d : List (String × PVal))
    (h : ¬(1 ≤ safeInt (pvGet d "student_rating_1to5") 3 ∧
           safeInt (pvGet d "student_rating_1to5") 3 ≤ 5 ∧
           1 ≤ safeInt (pvGet d "teacher_rating_1to5") 3 ∧
           safeInt (pvGet d "teacher_rating_1to5") 3 ≤ 5)) :
    normalizeRow (PVal.vdict d) = none := by
  simp only [normalizeRow]
  split
  case _ personas heq =>
    by_cases hp : personas.length < 2
    · rw [if_pos hp]
    · rw [if_neg hp]
      by_cases ha : (rowAliases personas).length < 2
      · rw [if_pos ha]
      · rw [if_neg ha, if_neg h]
  case _ => rfl

theorem normalizeRow_missing_rating (d : List (String × PVal)) (ps : List PVal) (t : ℤ)
    (hps : pvGet d "personas" = PVal.vlist ps) (hlen : 2 ≤ (rowAliases ps).length)
    (hs : d.lookup "student_rating_1to5" = none)
    (ht : pvGet d "teacher_rating_1to5" = PVal.vint t) (ht1 : 1 ≤ t) (ht5 : t ≤ 5) :
    normalizeRow (PVal.vdict d) = some ⟨rowAliases ps, 3, t⟩ := by
  have hp : ¬ ps.length < 2 := by
    have := le_trans hlen (rowAliases_length_le ps)
    omega
  have hsv : pvGet d "student_rating_1to5" = PVal.vnone := by
    rw [pvGet, hs]
    rfl
  simp only [normalizeRow, hps, if_neg hp, if_neg (by omega : ¬ (rowAliases ps).length < 2),
    hsv, ht]
  rw [if_pos]
  · rfl
  · exact ⟨by norm_num [safeInt], by norm_num [safeInt],
      by simpa [safeInt] using ht1, by simpa [safeInt] using ht5⟩

-- ## Lemmas about the user lookup shared by both endpoints

theorem resolveUsers_error_of_missing (uids known : List String) (hknown : known.Nodup)
    (u : String) (hu : u ∈ uids) (hunk : u ∉ known) :
    ∃ missing, resolveUsers uids known = Except.error missing ∧
      ∀ v, v ∈ missing ↔ v ∈ uids ∧ v ∉ known := by
  have hmem : ∀ v, v ∈ known.filter (fun w => w ∈ uids) ↔ v ∈ known ∧ v ∈ uids := by
    intro v
    simp [List.mem_filter]
  have hmn : (known.filter (fun w => w ∈ uids)).Nodup := hknown.filter _
  have hsub : (known.filter (fun w => w ∈ uids)).toFinset ⊆ uids.toFinset.erase u := by
    intro v hv
    rw [List.mem_toFinset, hmem] at hv
    rw [Finset.mem_erase, List.mem_toFinset]
    exact ⟨fun hvu => hunk (hvu ▸ hv.1), hv.2⟩
  have hlt : (known.filter (fun w => w ∈ uids)).length < uids.length := by
    have h1 : (known.filter (fun w => w ∈ uids)).length
        = (known.filter (fun w => w ∈ uids)).toFinset.card :=
      (List.toFinset_card_of_nodup hmn).symm
    have h2 := Finset.card_le_card hsub
    have h3 : (uids.toFinset.erase u).card = uids.toFinset.card - 1 :=
      Finset.card_erase_of_mem (List.mem_toFinset.mpr hu)
    have h4 : uids.toFinset.card ≤ uids.length := uids.toFinset_card_le
    have h5 : 1 ≤ uids.toFinset.card :=
      Finset.card_pos.mpr ⟨u, List.mem_toFinset.mpr hu⟩
    omega
  refine ⟨uids.dedup.filter (fun v => v ∉ known.filter (fun w => w ∈ uids)), ?_, ?_⟩
  · simp only [resolveUsers]
    rw [if_pos (by omega)]
  · intro v
    simp only [List.mem_filter, List.mem_dedup, decide_eq_true_eq, hmem]
    constructor
    · rintro ⟨hv, hnm⟩
      exact ⟨hv, fun hk => hnm ⟨hk, hv⟩⟩
    · rintro ⟨hv, hnk⟩
      exact ⟨hv, fun hk => hnk hk.1⟩

theorem resolveUsers_error_of_dup (uids known : List String) (hknown : known.Nodup)
    (hdup : ¬ uids.Nodup) (hall : ∀ u ∈ uids, u ∈ known) :
    resolveUsers uids known = Except.error [] := by
  have hmem : ∀ v, v ∈ known.filter (fun w => w ∈ uids) ↔ v ∈ known ∧ v ∈ uids := by
    intro v
    simp [List.mem_filter]
  have hmn : (known.filter (fun w => w ∈ uids)).Nodup := hknown.filter _
  have hdlt : uids.dedup.length < uids.length := by
    rcases lt_or_eq_of_le (List.Sublist.length_le (List.dedup_sublist uids)) with h | h
    · exact h
    · exact absurd ((List.dedup_sublist uids).eq_of_length h ▸ List.nodup_dedup uids) hdup
  have hsub : (known.filter (fun w => w ∈ uids)).toFinset ⊆ uids.toFinset := by
    intro v hv
    rw [List.mem_toFinset, hmem] at hv
    exact List.mem_toFinset.mpr hv.2
  have hlt : (known.filter (fun w => w ∈ uids)).length < uids.length := by
    have h1 : (known.filter (fun w => w ∈ uids)).length
        = (known.filter (fun w => w ∈ uids)).toFinset.card :=
      (List.toFinset_card_of_nodup hmn).symm
    have h2 := Finset.card_le_card hsub
    have h3 : uids.toFinset.card = uids.dedup.length := uids.card_toFinset
    omega
  unfold resolveUsers
  rw [if_pos (by omega)]
  congr 1
  rw [List.filter_eq_nil_iff]
  intro v hv
  simp only [decide_eq_true_eq, not_not]
  rw [hmem]
  have hvu : v ∈ uids := List.mem_dedup.mp hv
  exact ⟨hall v hvu, hvu⟩

-- ## Claim theorems

/-- C1: for every successful `form_groups` call (resolvable distinct ids,
`group_size` in [2,10]) the trial partition built from the shuffled uid
list contains each input actor id exactly once across its groups, every
group except at most the last has size exactly `group_size`, and the
last group has size in [1, group_size] — so a smaller remainder group
can only sit in trailing position. -/
theorem formGroups_partition_invariant (uids shuffled : List String) (k : ℕ)
    (hk2 : 2 ≤ k) (hk10 : k ≤ 10) (hlen : 2 ≤ uids.length) (hnd : uids.Nodup)
    (hperm : shuffled.Perm uids) :
    (chunkGroups shuffled k).flatten.Perm uids ∧
    (∀ a ∈ uids, (chunkGroups shuffled k).flatten.count a = 1) ∧
    (∀ g ∈ (chunkGroups shuffled k).dropLast, g.length = k) ∧
    (∀ g, (chunkGroups shuffled k).getLast? = some g → 1 ≤ g.length ∧ g.length ≤ k) := by
  have hj := chunkGroups_flatten shuffled k
  refine ⟨by rw [hj]; exact hperm, ?_, chunkGroups_dropLast_length shuffled k (by omega),
    chunkGroups_getLast_length shuffled k (by omega)⟩
  intro a ha
  rw [hj, hperm.count_eq]
  exact List.count_eq_one_of_mem hnd ha

/-- Witness for C1 at the spec's own example: 5 actors, size 2. -/
theorem formGroups_partition_invariant_witness :
    (chunkGroups ["u1", "u2", "u3", "u4", "u5"] 2).flatten.Perm
        ["u1", "u2", "u3", "u4", "u5"] ∧
    (chunkGroups ["u1", "u2", "u3", "u4", "u5"] 2).flatten.count "u3" = 1 := by
  have h := formGroups_partition_invariant ["u1", "u2", "u3", "u4", "u5"]
    ["u1", "u2", "u3", "u4", "u5"] 2 (by decide) (by decide) (by decide) (by decide)
    (List.Perm.refl _)
  exact ⟨h.1, h.2.1 "u3" (by decide)⟩

/-- C4: with `alpha = 2.0` the Feedback Learner maps a `["A","B"]` record
rated (5,5) to `pair_delta[("A","B")] = 4.0`, (1,1) to `-4.0`, (3,3) to
`0.0`; a `["A","B","C"]` record rated (5,5) assigns `+4.0` to each of
the three pairs — the same delta to all C(k,2) pairs, with no
normalization by pair count. -/
theorem feedback_learner_examples :
    pdGet (feedbackToPairDelta (.vlist [mkRowAB 5 5]) 2) ("A", "B") = 4 ∧
    pdGet (feedbackToPairDelta (.vlist [mkRowAB 1 1]) 2) ("A", "B") = -4 ∧
    pdGet (feedbackToPairDelta (.vlist [mkRowAB 3 3]) 2) ("A", "B") = 0 ∧
    feedbackToPairDelta (.vlist [rowABC55]) 2
      = [(("A", "B"), 4), (("A", "C"), 4), (("B", "C"), 4)] := by
  refine ⟨?_, ?_, ?_, ?_⟩ <;>
  · simp +decide [feedbackToPairDelta, normalizeFeedbackRows, normalizeRow, rowAliases,
      personaAliasOf, pyStrip, pvGet, safeInt, applyRow, recordPairs, sortPair, strLt,
      charListLt, pdAdd, pdGet, List.lookup, Option.getD, mkRowAB, rowABC55]
    try norm_num
    try decide

/-- C5 counterexample: with feedback requested but an empty learned map
(`incorporate = true`, `pair_delta = {}`) the code runs 80 trials, not
the 50 the claim asserts for that case. -/
theorem formGroupsIterations_counterexample :
    formGroupsIterations true ([] : PairDelta) = 80 ∧
    ¬ formGroupsIterations true ([] : PairDelta) = 50 := by
  constructor <;> decide

/-- C5 amended: the trial budget is 80 exactly when feedback is
requested — regardless of whether the learned PairDelta is empty — and
50 exactly when it is not requested. -/
theorem formGroupsIterations_amended (incorporate : Bool) (pd : PairDelta) :
    (formGroupsIterations incorporate pd = 80 ↔ incorporate = true) ∧
    (formGroupsIterations incorporate pd = 50 ↔ incorporate = false) := by
  cases incorporate <;> simp [formGroupsIterations]

/-- C8 counterexample: a single record listing the same identifier
twice (`["A","A"]`) produces the self-pair key `("A","A")` — the claim's
"no key pairs an identifier with itself" fails on the code. -/
theorem pairDelta_self_key_counterexample :
    (feedbackToPairDelta (.vlist [rowAA55]) 2).map Prod.fst = [("A", "A")] := by
  simp +decide [feedbackToPairDelta, normalizeFeedbackRows, normalizeRow, rowAliases,
    personaAliasOf, pyStrip, pvGet, safeInt, applyRow, recordPairs, sortPair, strLt,
    charListLt, pdAdd, List.lookup, Option.getD, rowAA55]

/-- C8 amended: every key of the learned map is an ordered pair in
canonical (lexicographically sorted) position `k.1 ≤ k.2`, and the two
components are distinct (`k.1 < k.2`) provided no surviving record
lists the same identifier twice; a duplicated identifier within one
record produces a self-pair key. -/
theorem pairDelta_keys_sorted (rows : PVal) (alpha : ℚ) (k : String × String)
    (hk : k ∈ (feedbackToPairDelta rows alpha).map Prod.fst) :
    k.1 ≤ k.2 ∧
      ((∀ row ∈ normalizeFeedbackRows rows, row.personas.Nodup) → k.1 < k.2) := by
  obtain ⟨row, hrow, hkp⟩ := feedbackToPairDelta_keys_mem rows alpha hk
  obtain ⟨a, b, _, _, hkey, hne⟩ := recordPairs_mem hkp
  subst hkey
  exact ⟨sortPair_le a b, fun hnd => sortPair_lt a b (hne (hnd row hrow))⟩

/-- Witness for C8's amended claim on the `["A","B"]` record. -/
theorem pairDelta_keys_sorted_witness :
    (("A" : String) ≤ "B") ∧ (("A" : String) < "B") := by
  have hmem : ("A", "B") ∈ (feedbackToPairDelta (.vlist [mkRowAB 5 5]) 2).map Prod.fst := by
    simp +decide [feedbackToPairDelta, normalizeFeedbackRows, normalizeRow, rowAliases,
      personaAliasOf, pyStrip, pvGet, safeInt, applyRow, recordPairs, sortPair, strLt,
      charListLt, pdAdd, List.lookup, Option.getD, mkRowAB]
  have h := pairDelta_keys_sorted (.vlist [mkRowAB 5 5]) 2 ("A", "B") hmem
  refine ⟨h.1, h.2 ?_⟩
  intro row hrow
  simp +decide [normalizeFeedbackRows, normalizeRow, rowAliases, personaAliasOf,
    pyStrip, pvGet, safeInt, List.lookup, Option.getD, mkRowAB] at hrow
  subst hrow
  decide

/-- C10: an actor-id list containing the same identifier more than once
is rejected with the "Some users not found" response even when every
identifier resolves — the count of matched actors is compared against
the raw list length — and the enumerated `missing_uids` list is then
empty. -/
theorem duplicate_uids_not_found (uids known : List String) (gsRaw : PVal)
    (hknown : known.Nodup) (hdup : ¬ uids.Nodup) (hall : ∀ u ∈ uids, u ∈ known)
    (h2 : 2 ≤ safeInt gsRaw 4) (h10 : safeInt gsRaw 4 ≤ 10) :
    resolveUsers uids known = Except.error [] ∧
    formGroupsValidate uids gsRaw known = Except.error (.usersNotFound []) := by
  have hres := resolveUsers_error_of_dup uids known hknown hdup hall
  refine ⟨hres, ?_⟩
  have hne : uids ≠ [] := by
    rintro rfl
    exact hdup List.nodup_nil
  have hlen2 : 2 ≤ uids.length := by
    rcases uids with _ | ⟨a, _ | ⟨b, rest⟩⟩
    · exact absurd List.nodup_nil hdup
    · exact absurd (List.nodup_singleton a) hdup
    · simp only [List.length_cons]
      omega
  simp only [formGroupsValidate]
  rw [if_neg hne, if_neg (by omega), if_neg (by omega), hres]

/-- Witness for C10: `["a","a"]` with `"a"` known and group size 2. -/
theorem duplicate_uids_not_found_witness :
    resolveUsers ["a", "a"] ["a"] = Except.error [] ∧
    formGroupsValidate ["a", "a"] (PVal.vint 2) ["a"]
      = Except.error (.usersNotFound []) :=
  duplicate_uids_not_found ["a", "a"] ["a"] (PVal.vint 2) (by decide) (by decide)
    (by decide) (by decide) (by decide)

/-- The user lookup succeeds and returns the matched uids whenever the
request list is duplicate-free and fully resolvable. -/
theorem resolveUsers_ok (uids known : List String) (hknown : known.Nodup)
    (hnd : uids.Nodup) (hall : ∀ u ∈ uids, u ∈ known) :
    resolveUsers uids known = Except.ok (known.filter (fun w => w ∈ uids)) := by
  have hmem : ∀ v, v ∈ known.filter (fun w => w ∈ uids) ↔ v ∈ known ∧ v ∈ uids := by
    intro v
    simp [List.mem_filter]
  have hmn : (known.filter (fun w => w ∈ uids)).Nodup := hknown.filter _
  have hset : (known.filter (fun w => w ∈ uids)).toFinset = uids.toFinset := by
    ext v
    rw [List.mem_toFinset, List.mem_toFinset, hmem]
    exact ⟨fun h => h.2, fun h => ⟨hall v h, h⟩⟩
  have hlen : (known.filter (fun w => w ∈ uids)).length = uids.length := by
    have h1 := List.toFinset_card_of_nodup hmn
    have h2 := List.toFinset_card_of_nodup hnd
    rw [hset] at h1
    omega
  simp only [resolveUsers]
  rw [if_neg (by omega)]

/-- C2: assuming the Oracle's base score is in [0,100], the Team
Scorer's output is in [0,100] and is an exact 2-decimal value for
adjustments of any magnitude: the summed pairwise feedback adjustment
is clamped to [-15,15] first, and base plus adjustment is then clamped
to [0,100] before rounding. -/
theorem teamScorer_bounds (oracle : List (List PAssign) → ℚ) (users : List Actor)
    (pd : PairDelta) (hor : ∀ bs, 0 ≤ oracle bs ∧ oracle bs ≤ 100) :
    (-15 ≤ teamFeedbackAdjustment (groupStudentAliases users) pd 15 ∧
      teamFeedbackAdjustment (groupStudentAliases users) pd 15 ≤ 15) ∧
    (pd ≠ ([] : PairDelta) → 2 ≤ (groupStudentAliases users).length →
      teamFeedbackAdjustment (groupStudentAliases users) pd 15
        = clamp (pairSum (groupStudentAliases users) pd) (-15) 15) ∧
    calcTeamScoreWithFeedback oracle users pd
      = round2 (clamp (groupBase oracle users
          + teamFeedbackAdjustment (groupStudentAliases users) pd 15) 0 100) ∧
    (0 ≤ groupBase oracle users ∧ groupBase oracle users ≤ 100) ∧
    0 ≤ calcTeamScoreWithFeedback oracle users pd ∧
    calcTeamScoreWithFeedback oracle users pd ≤ 100 ∧
    ∃ n : ℤ, calcTeamScoreWithFeedback oracle users pd = (n : ℚ) / 100 := by
  refine ⟨?_, ?_, rfl, ?_, ?_, ?_, ?_⟩
  · unfold teamFeedbackAdjustment
    split
    · norm_num
    · exact ⟨le_clamp _ _ _, clamp_le (by norm_num)⟩
  · intro hpd hal
    have hne : groupStudentAliases users ≠ [] := by
      intro he
      rw [he] at hal
      simp at hal
    rw [teamFeedbackAdjustment, if_neg]
    push_neg
    exact ⟨hne, by omega, hpd⟩
  · unfold groupBase
    split
    · exact hor _
    · norm_num
  · exact round2_nonneg (le_clamp _ _ _)
  · exact round2_le_100 (clamp_le (by norm_num))
  · exact ⟨_, rfl⟩

/-- Witness for C2 with the constant-50 oracle and an empty group. -/
theorem teamScorer_bounds_witness :
    0 ≤ calcTeamScoreWithFeedback oracle50 [] [] ∧
    calcTeamScoreWithFeedback oracle50 [] [] ≤ 100 := by
  have h := teamScorer_bounds oracle50 [] [] (fun bs => by norm_num [oracle50])
  exact ⟨h.2.2.2.2.1, h.2.2.2.2.2.1⟩

/-- C3 counterexample: with the legal base score 100/3, the skip path
used by `form_groups` for an empty `pair_delta` returns the raw 100/3
while the full pipeline with all deltas zero returns 33.33 — the
outputs differ. -/
theorem formGroups_skip_path_counterexample :
    formGroupsTrialScore oracleThird [actorIndy] [] = 100 / 3 ∧
    calcTeamScoreWithFeedback oracleThird [actorIndy] [] = 3333 / 100 ∧
    ¬ formGroupsTrialScore oracleThird [actorIndy] []
        = calcTeamScoreWithFeedback oracleThird [actorIndy] [] := by
  have hskip : formGroupsTrialScore oracleThird [actorIndy] [] = 100 / 3 := by
    rw [formGroupsTrialScore, if_neg (by simp), if_pos (by simp)]
    rfl
  have hfb : teamFeedbackAdjustment (groupStudentAliases [actorIndy]) [] 15 = 0 := by
    rw [teamFeedbackAdjustment, if_pos]
    right
    right
    rfl
  have hbase : groupBase oracleThird [actorIndy] = 100 / 3 := by
    rw [groupBase, if_pos (by simp [groupBundles, actorIndy])]
    rfl
  have hfloor : ⌊(10000 : ℚ) / 3⌋ = 3333 := by
    rw [Int.floor_eq_iff]
    norm_num
  have hfull : calcTeamScoreWithFeedback oracleThird [actorIndy] [] = 3333 / 100 := by
    rw [calcTeamScoreWithFeedback, hbase, hfb, add_zero,
      clamp_of_mem (by norm_num) (by norm_num), round2]
    rw [show (100 : ℚ) / 3 * 100 = 10000 / 3 by norm_num]
    simp only [pyRound, hfloor]
    rw [if_pos (by norm_num)]
    norm_num
  refine ⟨hskip, hfull, ?_⟩
  rw [hskip, hfull]
  norm_num

/-- C3 amended: the skip path coincides with the full pipeline under an
all-zero pair map exactly up to clamping and rounding — they produce
identical output provided at least one group member has persona
assignments and the Oracle's base score is in [0,100] and already exact
to two decimals; otherwise the skip path returns the raw (unclamped,
unrounded) base score. -/
theorem formGroups_skip_path_amended (oracle : List (List PAssign) → ℚ)
    (users : List Actor) (pdz : PairDelta) (hz : ∀ k, pdGet pdz k = 0)
    (hb : groupBundles users ≠ [])
    (h0 : 0 ≤ oracle (groupBundles users)) (h100 : oracle (groupBundles users) ≤ 100)
    (hexact : round2 (oracle (groupBundles users)) = oracle (groupBundles users)) :
    formGroupsTrialScore oracle users [] = calcTeamScoreWithFeedback oracle users pdz ∧
    calcTeamScoreWithFeedback oracle users pdz = oracle (groupBundles users) := by
  have husers : users ≠ [] := by
    intro h
    rw [h] at hb
    simp [groupBundles] at hb
  have hbase : groupBase oracle users = oracle (groupBundles users) := by
    rw [groupBase, if_pos hb]
  have hfb : teamFeedbackAdjustment (groupStudentAliases users) pdz 15 = 0 := by
    rw [teamFeedbackAdjustment]
    split
    · rfl
    · have hsum : pairSum (groupStudentAliases users) pdz = 0 := by
        unfold pairSum
        apply List.sum_eq_zero
        intro x hx
        obtain ⟨k, _, rfl⟩ := List.mem_map.mp hx
        exact hz k
      rw [hsum]
      unfold clamp
      norm_num
  have hscore : calcTeamScoreWithFeedback oracle users pdz = oracle (groupBundles users) := by
    rw [calcTeamScoreWithFeedback, hbase, hfb, add_zero, clamp_of_mem h0 h100, hexact]
  refine ⟨?_, hscore⟩
  rw [formGroupsTrialScore, if_neg (by simp), if_pos husers, hscore]

/-- Witness for C3's amended claim with the constant-50 oracle. -/
theorem formGroups_skip_path_amended_witness :
    formGroupsTrialScore oracle50 [actorIndy] []
      = calcTeamScoreWithFeedback oracle50 [actorIndy] [] ∧
    calcTeamScoreWithFeedback oracle50 [actorIndy] []
      = oracle50 (groupBundles [actorIndy]) := by
  have hexact : round2 (oracle50 (groupBundles [actorIndy]))
      = oracle50 (groupBundles [actorIndy]) := by
    show round2 50 = 50
    rw [round2, show (50 : ℚ) * 100 = ((5000 : ℤ) : ℚ) by norm_num]
    simp only [pyRound, Int.floor_intCast]
    rw [if_pos (by norm_num)]
    norm_num
  exact formGroups_skip_path_amended oracle50 [actorIndy] [] (fun _ => rfl)
    (by simp [groupBundles, actorIndy]) (by norm_num [oracle50]) (by norm_num [oracle50])
    hexact

/-- C6 counterexample: the non-integer `group_size = "abc"` does not
produce a validation error — `_safe_int` silently coerces it to the
default 4 and the request is accepted. -/
theorem formGroupsValidate_counterexample :
    safeInt (PVal.vstr "abc") 4 = 4 ∧
    formGroupsValidate ["u1", "u2"] (PVal.vstr "abc") ["u1", "u2"] = Except.ok 4 := by
  exact ⟨by decide, rfl⟩

/-- C6 amended: an empty uid list, fewer than 2 uids, and an
integer-coerced group size outside [2,10] are each reported as
validation errors; a non-integer `group_size` is silently coerced to
the default 4 (and the request then proceeds) rather than being
reported; any unresolvable id yields the missing-actors error whose
list enumerates exactly the unresolved ids. -/
theorem formGroupsValidate_amended (uids known : List String) (gsRaw : PVal)
    (hknown : known.Nodup) :
    (uids = [] → formGroupsValidate uids gsRaw known = Except.error .uidsRequired) ∧
    (uids ≠ [] → uids.length < 2 →
      formGroupsValidate uids gsRaw known = Except.error .needTwoUsers) ∧
    (2 ≤ uids.length → (safeInt gsRaw 4 < 2 ∨ 10 < safeInt gsRaw 4) →
      formGroupsValidate uids gsRaw known = Except.error .badGroupSize) ∧
    (2 ≤ uids.length → 2 ≤ safeInt gsRaw 4 → safeInt gsRaw 4 ≤ 10 →
      ∀ u, u ∈ uids → u ∉ known →
        ∃ missing, formGroupsValidate uids gsRaw known
            = Except.error (.usersNotFound missing) ∧
          ∀ v, v ∈ missing ↔ v ∈ uids ∧ v ∉ known) ∧
    (uids.Nodup → 2 ≤ uids.length → (∀ u ∈ uids, u ∈ known) →
      ∀ s, pyParseInt s = none →
        formGroupsValidate uids (PVal.vstr s) known = Except.ok 4) := by
  refine ⟨?_, ?_, ?_, ?_, ?_⟩
  · intro h
    subst h
    rfl
  · intro h1 h2
    simp only [formGroupsValidate]
    rw [if_neg h1, if_pos h2]
  · intro h1 h2
    have hne : uids ≠ [] := by
      intro h
      rw [h] at h1
      simp at h1
    simp only [formGroupsValidate]
    rw [if_neg hne, if_neg (by omega), if_pos h2]
  · intro h1 h2 h3 u hu hunk
    have hne : uids ≠ [] := by
      intro h
      rw [h] at h1
      simp at h1
    obtain ⟨missing, hres, hiff⟩ := resolveUsers_error_of_missing uids known hknown u hu hunk
    refine ⟨missing, ?_, hiff⟩
    simp only [formGroupsValidate]
    rw [if_neg hne, if_neg (by omega), if_neg (by omega), hres]
  · intro hnd h1 hall s hs
    have hne : uids ≠ [] := by
      intro h
      rw [h] at h1
      simp at h1
    have hgs : safeInt (PVal.vstr s) 4 = 4 := by
      simp [safeInt, hs]
    simp only [formGroupsValidate, hgs]
    rw [if_neg hne, if_neg (by omega), if_neg (by norm_num),
      resolveUsers_ok uids known hknown hnd hall]

/-- Witness for C6's amended claim: out-of-range size 11 is rejected,
non-integer size "abc" is coerced and accepted. -/
theorem formGroupsValidate_amended_witness :
    formGroupsValidate ["a", "b"] (PVal.vint 11) ["a", "b"]
      = Except.error .badGroupSize ∧
    formGroupsValidate ["a", "b"] (PVal.vstr "abc") ["a", "b"] = Except.ok 4 := by
  have h := formGroupsValidate_amended ["a", "b"] ["a", "b"] (PVal.vint 11) (by decide)
  exact ⟨h.2.2.1 (by decide) (by decide),
    h.2.2.2.2 (by decide) (by decide) (by decide) "abc" (by decide)⟩

/-- C7: the sanitizer never fails the whole call and drops rows
individually: a non-list input yields no rows; a non-record row, a row
with fewer than 2 valid (non-blank) persona identifiers, or a row whose
coerced rating is outside 1..5 is dropped; a missing rating key is
defaulted to 3 before range-checking, so such a row is still accepted
when the other rating is valid and ≥2 valid personas remain; every
surviving row has ≥2 personas and both ratings in 1..5. -/
theorem feedback_sanitization (rows : List PVal) :
    normalizeFeedbackRows (PVal.vlist rows) = rows.filterMap normalizeRow ∧
    (∀ v : PVal, (∀ l, v ≠ PVal.vlist l) → normalizeFeedbackRows v = []) ∧
    (∀ r row, normalizeRow r = some row →
      2 ≤ row.personas.length ∧ 1 ≤ row.studentRating ∧ row.studentRating ≤ 5 ∧
        1 ≤ row.teacherRating ∧ row.teacherRating ≤ 5) ∧
    (∀ r, (∀ d, r ≠ PVal.vdict d) → normalizeRow r = none) ∧
    (∀ d ps, pvGet d "personas" = PVal.vlist ps → (rowAliases ps).length < 2 →
      normalizeRow (PVal.vdict d) = none) ∧
    (∀ d, ¬(1 ≤ safeInt (pvGet d "student_rating_1to5") 3 ∧
            safeInt (pvGet d "student_rating_1to5") 3 ≤ 5 ∧
            1 ≤ safeInt (pvGet d "teacher_rating_1to5") 3 ∧
            safeInt (pvGet d "teacher_rating_1to5") 3 ≤ 5) →
      normalizeRow (PVal.vdict d) = none) ∧
    (∀ d ps t, pvGet d "personas" = PVal.vlist ps → 2 ≤ (rowAliases ps).length →
      d.lookup "student_rating_1to5" = none →
      pvGet d "teacher_rating_1to5" = PVal.vint t → 1 ≤ t → t ≤ 5 →
      normalizeRow (PVal.vdict d) = some ⟨rowAliases ps, 3, t⟩) := by
  refine ⟨rfl, ?_, normalizeRow_sound, normalizeRow_not_dict, normalizeRow_short_aliases,
    normalizeRow_bad_rating, normalizeRow_missing_rating⟩
  intro v hv
  cases v with
  | vlist l => exact absurd rfl (hv l)
  | vstr s => rfl
  | vint n => rfl
  | vdict d => rfl
  | vnone => rfl

/-- Witness for C7: a row with no student rating, teacher rating 5 and
two valid personas is accepted with the student rating defaulted to 3. -/
theorem feedback_sanitization_witness :
    normalizeRow (PVal.vdict rowNoStudent) = some ⟨["A", "B"], 3, 5⟩ := by
  have h := (feedback_sanitization []).2.2.2.2.2.2 rowNoStudent
    [PVal.vstr "A", PVal.vstr "B"] 5 rfl (by decide) rfl rfl (by decide) (by decide)
  simpa using h

/-- C9: with prior experiences requested but an empty (or unlearnable)
feedback input, the response reports method "ai", feedback_used false
and learned_pairs 0; method is "ai_feedback" exactly when feedback was
requested and the learned map is non-empty. -/
theorem formGroups_diagnostics :
    feedbackToPairDelta (PVal.vlist []) 2 = [] ∧
    (∀ rows, formGroupsPairDelta true rows = [] →
      formGroupsMethod true (formGroupsPairDelta true rows) = "ai" ∧
      formGroupsFeedbackUsed (formGroupsPairDelta true rows) = false ∧
      formGroupsLearnedPairs (formGroupsPairDelta true rows) = 0) ∧
    (∀ (incorporate : Bool) (rows : PVal),
      formGroupsMethod incorporate (formGroupsPairDelta incorporate rows) = "ai_feedback"
        ↔ incorporate = true ∧ formGroupsPairDelta incorporate rows ≠ []) := by
  refine ⟨rfl, ?_, ?_⟩
  · intro rows h
    rw [h]
    refine ⟨?_, by decide, rfl⟩
    rw [formGroupsMethod, if_neg (by simp)]
  · intro incorporate rows
    rw [formGroupsMethod]
    split
    · rename_i hcond
      exact iff_of_true rfl hcond
    · rename_i hcond
      constructor
      · intro h
        exact absurd h (by decide)
      · intro h
        exact absurd h hcond

/-- Witness for C9 at the empty feedback list. -/
theorem formGroups_diagnostics_witness :
    formGroupsMethod true (formGroupsPairDelta true (PVal.vlist [])) = "ai" ∧
    formGroupsFeedbackUsed (formGroupsPairDelta true (PVal.vlist [])) = false ∧
    formGroupsLearnedPairs (formGroupsPairDelta true (PVal.vlist [])) = 0 :=
  formGroups_diagnostics.2.1 (PVal.vlist []) rfl
